import Mathlib

/-!
Verification of the fastLM engine core (src/main.cpp).

The C++ program computes single-layer scaled dot-product attention over
dense row-major matrices of 32-bit floats and loads its four weight
matrices from a binary model file.  The embedding below models `float`
values as real numbers (exact arithmetic), `std::vector<std::vector<float>>`
as lists of lists of reals, the fatal `exit(1)` on a dimension mismatch as
an `Except` error, and byte / float streams as lists.
-/

namespace fastLM

/-- Error kinds of the engine design (DimensionMismatch from the kernels,
InvalidFormat from the model-file magic check). -/
inductive Err where
  | DimensionMismatch
  | InvalidFormat
deriving DecidableEq

/-- `Matrix` models `std::vector<std::vector<float>>`, floats idealised as reals. -/
abbrev Matrix := List (List ℝ)

/-- `m.size()`: the number of rows. -/
def Matrix.rows (m : Matrix) : Nat := m.length

/-- `m[0].size()`: the column count read from row 0 (0 for the empty matrix,
where the C++ would be undefined). -/
def Matrix.cols (m : Matrix) : Nat := (m.head?.getD []).length

/-- `m[i][j]` (defaulting to 0 out of bounds, where the C++ would be undefined). -/
def Matrix.entry (m : Matrix) (i j : Nat) : ℝ := (m.getD i []).getD j 0

/-- The triple accumulation loop of `matmul` (src/main.cpp:60-67):
`C[i][j] = Σ_k A[i][k] * B[k][j]` with `i < rowsA`, `j < colsB`, `k < colsA`. -/
noncomputable def matmulVal (A B : Matrix) : Matrix :=
  (List.range A.rows).map fun i =>
    (List.range B.cols).map fun j =>
      ((List.range A.cols).map fun k => A.entry i k * B.entry k j).sum

/-- `matmul` (src/main.cpp:49): if `colsA != rowsB` the process dies with the
dimension-mismatch error (modelled as `Except.error`), otherwise the
accumulated product is returned. -/
noncomputable def matmul (A B : Matrix) : Except Err Matrix :=
  if A.cols ≠ B.rows then .error .DimensionMismatch
  else .ok (matmulVal A B)

/-- `transpose` (src/main.cpp:71): `result[j][i] = m[i][j]`, a `cols × rows`
matrix. -/
noncomputable def transpose (m : Matrix) : Matrix :=
  (List.range m.cols).map fun j => (List.range m.rows).map fun i => m.entry i j

/-- The row-maximum loop of `softmax` (src/main.cpp:91-92): `max_val` starts
at `-1e9` and is replaced by every strictly larger element of the row. -/
noncomputable def max_val (row : List ℝ) : ℝ :=
  row.foldl (fun acc v => if v > acc then v else acc) (-1000000000)

/-- One row of `softmax` (src/main.cpp:94-102): shift by `max_val`,
exponentiate, then divide by the accumulated sum. -/
noncomputable def softmaxRow (row : List ℝ) : List ℝ :=
  let shifted := row.map fun v => Real.exp (v - max_val row)
  shifted.map fun v => v / shifted.sum

/-- `softmax` (src/main.cpp:83), row-wise and in place.  The C++ reads the
column count from row 0; on rectangular inputs (the only valid ones) that
equals every row's own length, so the kernel is modelled per row. -/
noncomputable def softmax (m : Matrix) : Matrix := m.map softmaxRow

/-- `attention` (src/main.cpp:106): `scores = Q × Kᵀ`, divide every element
by `sqrt(d_k)` with `d_k = Q[0].size()`, softmax in place, multiply by `V`. -/
noncomputable def attention (Q K V : Matrix) : Except Err Matrix := do
  let K_T := transpose K
  let scores ← matmul Q K_T
  let scaled := scores.map fun row => row.map fun v => v / Real.sqrt (Q.cols : ℝ)
  matmul (softmax scaled) V

/-- The attention formula as the spec words it: softmax of `Q × transpose(K)`
with every element divided by `sqrt(d_k)` (`d_k` = column count of `Q`),
multiplied by `V`.  Stated separately so the kernel can be compared to it. -/
noncomputable def attentionSpec (Q K V : Matrix) : Matrix :=
  matmulVal
    (softmax ((matmulVal Q (transpose K)).map fun row =>
      row.map fun v => v / Real.sqrt (Q.cols : ℝ))) V

/-- The transformer block (src/main.cpp:137): four `d_model × d_model`
weight matrices. -/
structure TransformerBlock where
  W_q : Matrix
  W_k : Matrix
  W_v : Matrix
  W_out : Matrix

/-- `TransformerBlock::forward` (src/main.cpp:162): project the input to
Q, K, V, run attention, then multiply by `W_out`. -/
noncomputable def TransformerBlock.forward (b : TransformerBlock) (input : Matrix) :
    Except Err Matrix := do
  let Q ← matmul input b.W_q
  let K ← matmul input b.W_k
  let V ← matmul input b.W_v
  let attn_out ← attention Q K V
  matmul attn_out b.W_out

/-- `RAND_MAX` of the reference platform (glibc). -/
def RAND_MAX : Nat := 2147483647

/-- `createRandomMatrix` (src/main.cpp:35): `m[i][j] = (float)rand() / RAND_MAX`.
The pseudo-random source is modelled as the sequence `r` of successive `rand()`
results; `rand()` returns values in `[0, RAND_MAX]`, both ends included. -/
noncomputable def createRandomMatrix (r : Nat → Nat) (rows cols : Nat) : Matrix :=
  (List.range rows).map fun i =>
    (List.range cols).map fun j => (r (i * cols + j) : ℝ) / (RAND_MAX : ℝ)

/-- `loadMatrix` (src/main.cpp:127): for each row, `fread` copies as many of
the remaining stream floats as fit (at most `cols`) over the row's leading
cells, leaves the rest of the row unchanged, and advances the stream by what
was actually read.  The file is modelled at float granularity. -/
def loadMatrix : List ℝ → Matrix → Matrix × List ℝ
  | f, [] => ([], f)
  | f, row :: rest =>
      let r := f.take row.length
      let loaded := loadMatrix (f.drop row.length) rest
      ((r ++ row.drop r.length) :: loaded.1, loaded.2)

/-- The `TransformerBlock` constructor (src/main.cpp:141): allocate four
`d_model × d_model` matrices (`std::vector<float>(d_model)` value-initialises
every cell to `0.0f`), then load them from the stream in the fixed order
`W_q`, `W_k`, `W_v`, `W_out`.  No read is ever checked, so a short stream is
absorbed silently. -/
def mkTransformerBlock (d_model : Nat) (f : List ℝ) : TransformerBlock × List ℝ :=
  let zeroM : Matrix := List.replicate d_model (List.replicate d_model (0 : ℝ))
  let lq := loadMatrix f zeroM
  let lk := loadMatrix lq.2 zeroM
  let lv := loadMatrix lk.2 zeroM
  let lo := loadMatrix lv.2 zeroM
  (⟨lq.1, lk.1, lv.1, lo.1⟩, lo.2)

/-- The little-endian 32-bit value held in the first four bytes of a stream
(how `fread(&x, sizeof(int), 1, f)` fills a word on the reference platform). -/
def leU32 (s : List Nat) : Nat :=
  s.getD 0 0 + 256 * s.getD 1 0 + 65536 * s.getD 2 0 + 16777216 * s.getD 3 0

/-- Reading a 32-bit word as a twos-complement signed `int`. -/
def toSigned32 (n : Nat) : Int :=
  if n < 2 ^ 31 then (n : Int) else (n : Int) - 2 ^ 32

/-- The header logic of `main` (src/main.cpp:182-195): read the 4-byte magic;
if it differs from `0xFEEDBEEF` fail with InvalidFormat, reading nothing
further; otherwise read the layer count and then `d_model`, each a 4-byte
signed `int`.  The second component is the unread remainder of the stream. -/
def readHeader (s : List Nat) : Except Err (Int × Int) × List Nat :=
  let magic := leU32 s
  let s1 := s.drop 4
  if magic ≠ 0xFEEDBEEF then (.error .InvalidFormat, s1)
  else
    let layers := toSigned32 (leU32 s1)
    let s2 := s1.drop 4
    let d_model := toSigned32 (leU32 s2)
    (.ok (layers, d_model), s2.drop 4)

/-- Observable resource events of the driver. -/
inductive Event where
  | fopen
  | fclose
  | inference
deriving DecidableEq

/-- The driver control flow of `main` (src/main.cpp:171-231) restricted to
its observable resource events.  `openOk` models whether `fopen` succeeds.
After a successful open, an invalid magic makes `main` return 1 immediately;
otherwise the dimensions and weights are read (`fread` failures are never
checked, so nothing else can stop the flow), the file is closed, and the
forward pass runs. -/
def mainEvents (openOk : Bool) (s : List Nat) : List Event :=
  if !openOk then []
  else if leU32 s ≠ 0xFEEDBEEF then [Event.fopen]
  else [Event.fopen, Event.fclose, Event.inference]

/-! ### Basic indexing and shape lemmas -/

theorem getD_range_map {α : Type} (f : Nat → α) (d : α) {i n : Nat} (h : i < n) :
    ((List.range n).map f).getD i d = f i := by
  have hl : i < ((List.range n).map f).length := by simpa using h
  rw [List.getD_eq_getElem _ _ hl, List.getElem_map, List.getElem_range]

theorem cols_eq_getD (m : Matrix) : m.cols = (m.getD 0 []).length := by
  cases m <;> rfl

theorem matmulVal_rows (A B : Matrix) : (matmulVal A B).rows = A.rows := by
  simp [matmulVal, Matrix.rows]

theorem matmulVal_cols (A B : Matrix) (h : 0 < A.rows) : (matmulVal A B).cols = B.cols := by
  rw [cols_eq_getD, matmulVal, getD_range_map _ _ h]
  simp

theorem matmulVal_row_length (A B : Matrix) {row : List ℝ} (h : row ∈ matmulVal A B) :
    row.length = B.cols := by
  simp only [matmulVal, List.mem_map, List.mem_range] at h
  obtain ⟨i, -, rfl⟩ := h
  simp

theorem matmulVal_entry (A B : Matrix) {i j : Nat} (hi : i < A.rows) (hj : j < B.cols) :
    (matmulVal A B).entry i j =
      ((List.range A.cols).map fun k => A.entry i k * B.entry k j).sum := by
  unfold Matrix.entry matmulVal
  rw [getD_range_map _ _ hi, getD_range_map _ _ hj]
  simp only [Matrix.entry]

theorem transpose_rows (m : Matrix) : (transpose m).rows = m.cols := by
  simp [transpose, Matrix.rows]

theorem transpose_cols (m : Matrix) (h : 0 < m.cols) : (transpose m).cols = m.rows := by
  rw [cols_eq_getD, transpose, getD_range_map _ _ h]
  simp [Matrix.rows]

theorem softmaxRow_length (row : List ℝ) : (softmaxRow row).length = row.length := by
  simp [softmaxRow]

theorem softmax_rows (m : Matrix) : (softmax m).rows = m.rows := by
  simp [softmax, Matrix.rows]

theorem softmax_cols (m : Matrix) : (softmax m).cols = m.cols := by
  cases m <;> simp [softmax, Matrix.cols, softmaxRow_length]

theorem cols_map_rowmap (m : Matrix) (g : ℝ → ℝ) :
    Matrix.cols (m.map fun row => row.map g) = m.cols := by
  cases m <;> simp [Matrix.cols]

theorem rows_map_rowmap (m : Matrix) (g : ℝ → ℝ) :
    Matrix.rows (m.map fun row => row.map g) = m.rows := by
  simp [Matrix.rows]

theorem list_range_map_sum (f : Nat → ℝ) (n : Nat) :
    ((List.range n).map f).sum = ∑ k ∈ Finset.range n, f k := by
  induction n with
  | zero => simp
  | succ n ih => rw [List.range_succ, Finset.sum_range_succ]; simp [ih]

/-! ### The row-maximum fold -/

theorem max_step_eq_max (acc v : ℝ) : (if v > acc then v else acc) = max acc v := by
  rcases le_or_lt v acc with h | h
  · rw [if_neg (not_lt.mpr h), max_eq_left h]
  · rw [if_pos h, max_eq_right h.le]

theorem max_val_eq_foldl_max (row : List ℝ) :
    max_val row = row.foldl max (-1000000000) := by
  unfold max_val
  congr 1
  funext acc v
  exact max_step_eq_max acc v

theorem le_foldl_max (l : List ℝ) (init : ℝ) : init ≤ l.foldl max init := by
  induction l generalizing init with
  | nil => exact le_refl init
  | cons a t ih => exact le_trans (le_max_left init a) (ih (max init a))

theorem mem_le_foldl_max (l : List ℝ) (init : ℝ) : ∀ x ∈ l, x ≤ l.foldl max init := by
  induction l generalizing init with
  | nil => intro x hx; cases hx
  | cons a t ih =>
    intro x hx
    rcases List.mem_cons.mp hx with rfl | hx
    · exact le_trans (le_max_right init x) (le_foldl_max t (max init x))
    · exact ih (max init a) x hx

theorem foldl_max_mem (l : List ℝ) (init : ℝ) :
    l.foldl max init = init ∨ l.foldl max init ∈ l := by
  induction l generalizing init with
  | nil => exact Or.inl rfl
  | cons a t ih =>
    rcases ih (max init a) with h | h
    · rcases max_cases init a with ⟨he, -⟩ | ⟨he, -⟩
      · exact Or.inl (by rw [List.foldl_cons, h, he])
      · exact Or.inr (by rw [List.foldl_cons, h, he]; exact List.mem_cons_self a t)
    · exact Or.inr (List.mem_cons_of_mem a h)

/-! ### Softmax row analysis -/

theorem softmaxRow_sum_one (row : List ℝ) (h : row ≠ []) :
    (softmaxRow row).sum = 1 := by
  unfold softmaxRow
  have hpos : ∀ x ∈ row.map fun v => Real.exp (v - max_val row), 0 < x := by
    intro x hx
    simp only [List.mem_map] at hx
    obtain ⟨v, -, rfl⟩ := hx
    exact Real.exp_pos _
  have hne : (row.map fun v => Real.exp (v - max_val row)) ≠ [] := by
    simpa using h
  have hs : 0 < (row.map fun v => Real.exp (v - max_val row)).sum :=
    List.sum_pos _ hpos hne
  have hdiv : ∀ (l : List ℝ) (c : ℝ), (l.map fun x => x / c).sum = l.sum / c := by
    intro l c
    induction l with
    | nil => simp
    | cons a t ih => simp [ih, add_div]
  rw [hdiv]
  exact div_self (ne_of_gt hs)

theorem softmaxRow_mem_unit (row : List ℝ) (h : row ≠ []) :
    ∀ x ∈ softmaxRow row, 0 ≤ x ∧ x ≤ 1 := by
  unfold softmaxRow
  intro x hx
  simp only [List.mem_map] at hx
  obtain ⟨v, hv, rfl⟩ := hx
  obtain ⟨w, hw, rfl⟩ := hv
  have hpos : ∀ x ∈ row.map fun v => Real.exp (v - max_val row), 0 < x := by
    intro x hx
    simp only [List.mem_map] at hx
    obtain ⟨u, -, rfl⟩ := hx
    exact Real.exp_pos _
  have hne : (row.map fun v => Real.exp (v - max_val row)) ≠ [] := by
    simpa using h
  have hs : 0 < (row.map fun v => Real.exp (v - max_val row)).sum :=
    List.sum_pos _ hpos hne
  constructor
  · exact le_of_lt (div_pos (Real.exp_pos _) hs)
  · rw [div_le_one hs]
    exact List.single_le_sum (fun x hx => le_of_lt (hpos x hx)) _
      (List.mem_map_of_mem _ hw)

/-! ### Attention succeeds on valid shapes and equals the spec formula -/

theorem scaled_scores_cols (Q K : Matrix) (hQ : 0 < Q.rows) (hKc : 0 < K.cols) :
    Matrix.cols (softmax ((matmulVal Q (transpose K)).map fun row =>
      row.map fun v => v / Real.sqrt (Q.cols : ℝ))) = K.rows := by
  rw [softmax_cols, cols_map_rowmap, matmulVal_cols _ _ hQ, transpose_cols _ hKc]

theorem attention_ok (Q K V : Matrix) (hQ : 0 < Q.rows) (hKc : 0 < K.cols)
    (h1 : Q.cols = K.cols) (h2 : K.rows = V.rows) :
    attention Q K V = .ok (attentionSpec Q K V) := by
  have hm1 : matmul Q (transpose K) = .ok (matmulVal Q (transpose K)) := by
    rw [matmul, if_neg]
    simp [transpose_rows, h1]
  unfold attention
  dsimp only
  rw [hm1]
  show matmul (softmax ((matmulVal Q (transpose K)).map fun row =>
      row.map fun v => v / Real.sqrt (Q.cols : ℝ))) V = .ok (attentionSpec Q K V)
  rw [matmul, if_neg]
  · rfl
  · rw [scaled_scores_cols Q K hQ hKc, h2]
    simp

theorem attentionSpec_rows (Q K V : Matrix) : (attentionSpec Q K V).rows = Q.rows := by
  unfold attentionSpec
  rw [matmulVal_rows, softmax_rows, rows_map_rowmap, matmulVal_rows]

theorem attentionSpec_cols (Q K V : Matrix) (hQ : 0 < Q.rows) :
    (attentionSpec Q K V).cols = V.cols := by
  unfold attentionSpec
  rw [matmulVal_cols]
  rw [softmax_rows, rows_map_rowmap, matmulVal_rows]
  exact hQ

/-! ### Loader analysis -/

theorem getD_drop (l : List ℝ) (n m : Nat) (d : ℝ) :
    (l.drop n).getD m d = l.getD (n + m) d := by
  rw [List.getD_eq_getD_get?, List.getD_eq_getD_get?]
  simp [List.getElem?_drop]

theorem replicate_getD_zero (n j : Nat) : (List.replicate n (0 : ℝ)).getD j 0 = 0 := by
  rcases Nat.lt_or_ge j n with h | h
  · rw [List.getD_eq_getElem _ _ (by simpa using h), List.getElem_replicate]
  · exact List.getD_eq_default _ _ (by simpa using h)

theorem getD_take (l : List ℝ) (n j : Nat) (hj : j < n) :
    (l.take n).getD j 0 = l.getD j 0 := by
  rcases Nat.lt_or_ge j l.length with h | h
  · have h1 : j < (l.take n).length := by simp [hj, h]
    rw [List.getD_eq_getElem _ _ h1, List.getD_eq_getElem _ _ h, List.getElem_take]
  · rw [List.getD_eq_default _ _
        (by rw [List.length_take]; exact le_trans (Nat.min_le_right _ _) h),
      List.getD_eq_default _ _ h]

theorem loadRow_getD (f : List ℝ) (cols j : Nat) (hj : j < cols) :
    (f.take cols ++ (List.replicate cols (0 : ℝ)).drop (f.take cols).length).getD j 0 =
      f.getD j 0 := by
  rcases Nat.lt_or_ge j (f.take cols).length with h | h
  · rw [List.getD_append _ _ _ _ h, getD_take _ _ _ hj]
  · rw [List.getD_append_right _ _ _ _ h, getD_drop, replicate_getD_zero]
    have hf : f.length ≤ j := by
      rcases Nat.lt_or_ge f.length cols with hc | hc
      · simpa [Nat.min_eq_right hc.le] using h
      · exact absurd (by simpa [Nat.min_eq_left hc] using h) (Nat.not_le.mpr hj)
    rw [List.getD_eq_default _ _ hf]

theorem loadMatrix_snd (f : List ℝ) (rows cols : Nat) :
    (loadMatrix f (List.replicate rows (List.replicate cols (0 : ℝ)))).2 =
      f.drop (rows * cols) := by
  induction rows generalizing f with
  | zero => simp [loadMatrix]
  | succ r ih =>
    rw [List.replicate_succ, loadMatrix]
    simp only [List.length_replicate]
    rw [ih (f.drop cols), List.drop_drop]
    congr 1
    ring

theorem loadMatrix_entry (f : List ℝ) (rows cols i j : Nat) (hi : i < rows) (hj : j < cols) :
    (loadMatrix f (List.replicate rows (List.replicate cols (0 : ℝ)))).1.entry i j =
      f.getD (i * cols + j) 0 := by
  induction rows generalizing f i with
  | zero => exact absurd hi (Nat.not_lt_zero i)
  | succ r ih =>
    rw [List.replicate_succ, loadMatrix]
    simp only [List.length_replicate]
    cases i with
    | zero =>
      show (f.take cols ++ (List.replicate cols (0 : ℝ)).drop (f.take cols).length).getD j 0 =
        f.getD (0 * cols + j) 0
      rw [loadRow_getD _ _ _ hj, Nat.zero_mul, Nat.zero_add]
    | succ i =>
      show (loadMatrix (f.drop cols) (List.replicate r (List.replicate cols (0:ℝ)))).1.entry i j =
        f.getD ((i + 1) * cols + j) 0
      rw [ih (f.drop cols) i (Nat.lt_of_succ_lt_succ hi), getD_drop]
      congr 1
      ring

/-! ### Claim theorems -/

/-- C3: for all non-empty rectangular matrices `A` and `B` with
`A.cols == B.rows`, `multiply(A, B)` returns a matrix `C` with
`C.rows == A.rows`, `C.cols == B.cols`, and
`C[i][j] = Σ_k A[i][k] · B[k][j]` for every valid `i`, `j`. -/
theorem matmul_correct (A B : Matrix)
    (hA : 0 < A.rows) (hAc : 0 < A.cols) (hB : 0 < B.rows) (hBc : 0 < B.cols)
    (hArect : ∀ row ∈ A, row.length = A.cols) (hBrect : ∀ row ∈ B, row.length = B.cols)
    (hAB : A.cols = B.rows) :
    matmul A B = .ok (matmulVal A B) ∧
    (matmulVal A B).rows = A.rows ∧ (matmulVal A B).cols = B.cols ∧
    ∀ i < A.rows, ∀ j < B.cols,
      (matmulVal A B).entry i j = ∑ k ∈ Finset.range A.cols, A.entry i k * B.entry k j := by
  refine ⟨?_, matmulVal_rows A B, matmulVal_cols A B hA, ?_⟩
  · rw [matmul, if_neg]
    simp [hAB]
  · intro i hi j hj
    rw [matmulVal_entry A B hi hj, list_range_map_sum]

/-- Witness for C3 at `A = [[1, 2]]`, `B = [[3], [4]]`. -/
theorem matmul_correct_witness :
    matmul [[(1 : ℝ), 2]] [[3], [4]] = .ok (matmulVal [[(1 : ℝ), 2]] [[3], [4]]) :=
  (matmul_correct [[(1 : ℝ), 2]] [[3], [4]]
    (by norm_num [Matrix.rows]) (by norm_num [Matrix.cols])
    (by norm_num [Matrix.rows]) (by norm_num [Matrix.cols])
    (by simp [Matrix.cols]) (by simp [Matrix.cols])
    (by simp [Matrix.cols, Matrix.rows])).1

/-- C4: after `softmax(M)` on a matrix with at least one row and one column,
every row sums to 1 and every element lies in `[0, 1]` (exact over the
real-valued idealisation of `float`). -/
theorem softmax_normalizes (m : Matrix) (hm : 0 < m.rows)
    (hrows : ∀ row ∈ m, 0 < row.length) :
    ∀ row ∈ softmax m, row.sum = 1 ∧ ∀ x ∈ row, 0 ≤ x ∧ x ≤ 1 := by
  intro row hrow
  obtain ⟨r, hr, rfl⟩ := List.mem_map.mp hrow
  have hne : r ≠ [] := List.length_pos.mp (hrows r hr)
  exact ⟨softmaxRow_sum_one r hne, softmaxRow_mem_unit r hne⟩

/-- Witness for C4 at `M = [[0]]`, whose single output row is
`softmaxRow [0]`. -/
theorem softmax_normalizes_witness :
    (softmaxRow [(0 : ℝ)]).sum = 1 ∧ ∀ x ∈ softmaxRow [(0 : ℝ)], 0 ≤ x ∧ x ≤ 1 :=
  softmax_normalizes [[(0 : ℝ)]] (by norm_num [Matrix.rows]) (by simp)
    (softmaxRow [(0 : ℝ)]) (by simp [softmax])

/-- C5 counterexample: on the row `[-2e9]`, whose elements all lie below the
`-1e9` seed of the maximum loop, `max_val` stays at `-1e9` and differs from
the true row maximum `-2e9`. -/
theorem max_val_misses_true_max :
    max_val [(-2000000000 : ℝ)] = -1000000000 ∧
    max_val [(-2000000000 : ℝ)] ≠ -2000000000 := by
  have h : max_val [(-2000000000 : ℝ)] = -1000000000 := by
    unfold max_val
    simp only [List.foldl_cons, List.foldl_nil]
    rw [if_neg (by norm_num)]
  exact ⟨h, by rw [h]; norm_num⟩

/-- C5 amended: `max_val` equals the maximum element of the row whenever at
least one element is `≥ -1e9`; for rows lying entirely below `-1e9` it is the
seed `-1e9` instead. -/
theorem max_val_row_max (row : List ℝ) (h : ∃ x ∈ row, -1000000000 ≤ x) :
    max_val row ∈ row ∧ ∀ y ∈ row, y ≤ max_val row := by
  rw [max_val_eq_foldl_max]
  refine ⟨?_, mem_le_foldl_max row _⟩
  rcases foldl_max_mem row (-1000000000) with he | hm
  · obtain ⟨x, hx, hge⟩ := h
    have hle : x ≤ row.foldl max (-1000000000) := mem_le_foldl_max row _ x hx
    have hxe : x = -1000000000 := le_antisymm (he ▸ hle) hge
    rw [he, ← hxe]
    exact hx
  · exact hm

/-- Witness for the amended C5 at the row `[3, -5]`. -/
theorem max_val_row_max_witness :
    max_val [(3 : ℝ), -5] ∈ [(3 : ℝ), -5] ∧ ∀ y ∈ [(3 : ℝ), -5], y ≤ max_val [(3 : ℝ), -5] :=
  max_val_row_max [(3 : ℝ), -5] ⟨3, by simp, by norm_num⟩

/-- C9 counterexample: when the pseudo-random source returns `RAND_MAX`
(which `rand()` can), the generated element is exactly `1`, not below it. -/
theorem createRandomMatrix_hits_one :
    (createRandomMatrix (fun _ => RAND_MAX) 1 1).entry 0 0 = 1 ∧
    ¬ (createRandomMatrix (fun _ => RAND_MAX) 1 1).entry 0 0 < 1 := by
  have h : (createRandomMatrix (fun _ => RAND_MAX) 1 1).entry 0 0 = 1 := by
    unfold createRandomMatrix Matrix.entry
    norm_num [List.range_succ, RAND_MAX]
  exact ⟨h, by rw [h]; exact lt_irrefl 1⟩

/-- C9 amended: for every state of the pseudo-random source (all `rand()`
results lie in `[0, RAND_MAX]`), every generated element lies in the closed
interval `[0, 1]`; the upper end is attained when `rand()` hits `RAND_MAX`. -/
theorem createRandomMatrix_in_unit_interval (r : Nat → Nat) (rows cols : Nat)
    (hr : ∀ n, r n ≤ RAND_MAX) :
    ∀ row ∈ createRandomMatrix r rows cols, ∀ x ∈ row, 0 ≤ x ∧ x ≤ 1 := by
  intro row hrow x hx
  unfold createRandomMatrix at hrow
  simp only [List.mem_map, List.mem_range] at hrow
  obtain ⟨i, -, rfl⟩ := hrow
  simp only [List.mem_map, List.mem_range] at hx
  obtain ⟨j, -, rfl⟩ := hx
  constructor
  · exact div_nonneg (Nat.cast_nonneg _) (by norm_num [RAND_MAX])
  · rw [div_le_one (by norm_num [RAND_MAX])]
    exact_mod_cast hr (i * cols + j)

/-- Witness for the amended C9 with the all-zero source on a 1×1 matrix,
whose single element is `0 / RAND_MAX`. -/
theorem createRandomMatrix_in_unit_interval_witness :
    0 ≤ (0 : ℝ) / (RAND_MAX : ℝ) ∧ (0 : ℝ) / (RAND_MAX : ℝ) ≤ 1 :=
  createRandomMatrix_in_unit_interval (fun _ => 0) 1 1 (fun _ => Nat.zero_le _)
    [(0 : ℝ) / (RAND_MAX : ℝ)] (by simp [createRandomMatrix])
    ((0 : ℝ) / (RAND_MAX : ℝ)) (by simp)

/-! ### Attention failure paths -/

theorem attention_err_qk (Q K V : Matrix) (h1 : Q.cols ≠ K.cols) :
    attention Q K V = .error Err.DimensionMismatch := by
  have hm : matmul Q (transpose K) = .error Err.DimensionMismatch := by
    rw [matmul, if_pos]
    rwa [transpose_rows]
  unfold attention
  dsimp only
  rw [hm]
  rfl

theorem attention_err_kv (Q K V : Matrix) (hQ : 0 < Q.rows) (hKc : 0 < K.cols)
    (h1 : Q.cols = K.cols) (h2 : K.rows ≠ V.rows) :
    attention Q K V = .error Err.DimensionMismatch := by
  have hm1 : matmul Q (transpose K) = .ok (matmulVal Q (transpose K)) := by
    rw [matmul, if_neg]
    simp [transpose_rows, h1]
  unfold attention
  dsimp only
  rw [hm1]
  show matmul (softmax ((matmulVal Q (transpose K)).map fun row =>
      row.map fun v => v / Real.sqrt (Q.cols : ℝ))) V = .error Err.DimensionMismatch
  rw [matmul, if_pos]
  rwa [scaled_scores_cols Q K hQ hKc]

/-- C6: `multiply(A, B)` fails with the DimensionMismatch error iff
`A.cols ≠ B.rows`, and `attention(Q, K, V)` fails with the same error iff
`Q.cols ≠ K.cols` or `K.rows ≠ V.rows`.  A failing call yields
`Except.error`, which carries no matrix, so no wrong-shape result can be
returned. -/
theorem mismatch_error_iff (A B Q K V : Matrix)
    (hQ : 0 < Q.rows) (hQc : 0 < Q.cols) (hK : 0 < K.rows) (hKc : 0 < K.cols)
    (hV : 0 < V.rows) (hVc : 0 < V.cols) :
    (matmul A B = .error Err.DimensionMismatch ↔ A.cols ≠ B.rows) ∧
    (attention Q K V = .error Err.DimensionMismatch ↔
      (Q.cols ≠ K.cols ∨ K.rows ≠ V.rows)) := by
  constructor
  · by_cases h : A.cols = B.rows <;> simp [matmul, h]
  · by_cases h1 : Q.cols = K.cols
    · by_cases h2 : K.rows = V.rows
      · rw [attention_ok Q K V hQ hKc h1 h2]
        simp [h1, h2]
      · rw [attention_err_kv Q K V hQ hKc h1 h2]
        simp [h2]
    · rw [attention_err_qk Q K V h1]
      simp [h1]

/-- Witness for C6: a compatible `multiply` pair and an `attention` triple
with `K.rows ≠ V.rows` (two keys, one value). -/
theorem mismatch_error_iff_witness :
    (matmul [[(1 : ℝ)]] [[1]] = .error Err.DimensionMismatch ↔
      Matrix.cols [[(1 : ℝ)]] ≠ Matrix.rows [[(1 : ℝ)]]) ∧
    (attention [[(1 : ℝ)]] [[(1 : ℝ)], [2]] [[5]] = .error Err.DimensionMismatch ↔
      (Matrix.cols [[(1 : ℝ)]] ≠ Matrix.cols [[(1 : ℝ)], [2]] ∨
        Matrix.rows [[(1 : ℝ)], [2]] ≠ Matrix.rows [[(5 : ℝ)]])) := by
  have h := mismatch_error_iff [[(1 : ℝ)]] [[1]] [[(1 : ℝ)]] [[(1 : ℝ)], [2]] [[5]]
    (by norm_num [Matrix.rows]) (by norm_num [Matrix.cols])
    (by norm_num [Matrix.rows]) (by norm_num [Matrix.cols])
    (by norm_num [Matrix.rows]) (by norm_num [Matrix.cols])
  simpa using h

/-- C7: the header read fails with InvalidFormat exactly when the first
4-byte value differs from `0xFEEDBEEF`; on failure only the 4 magic bytes
have been consumed (neither layer count, nor `d_model`, nor weights), and on
success the layer count and `d_model` are read as consecutive 4-byte signed
ints, leaving the stream positioned after the 12-byte header. -/
theorem readHeader_behavior (s : List Nat) (h : 12 ≤ s.length) :
    ((readHeader s).1 = .error Err.InvalidFormat ↔ leU32 s ≠ 0xFEEDBEEF) ∧
    (leU32 s ≠ 0xFEEDBEEF → (readHeader s).2 = s.drop 4) ∧
    (leU32 s = 0xFEEDBEEF →
      (readHeader s).1 =
        .ok (toSigned32 (leU32 (s.drop 4)), toSigned32 (leU32 (s.drop 8))) ∧
      (readHeader s).2 = s.drop 12) := by
  by_cases hm : leU32 s = 0xFEEDBEEF
  · simp only [readHeader]
    rw [if_neg (not_not.mpr hm)]
    refine ⟨by simp [hm], fun hc => absurd hm hc, fun _ => ⟨?_, ?_⟩⟩
    · simp [List.drop_drop]
    · simp [List.drop_drop]
  · simp only [readHeader]
    rw [if_pos hm]
    exact ⟨by simp [hm], fun _ => rfl, fun hc => absurd hc hm⟩

/-- Witness for C7 on a well-formed 12-byte header: magic `0xFEEDBEEF`
(bytes EF BE ED FE), layers 1, `d_model` 2. -/
theorem readHeader_behavior_witness :
    ((readHeader [0xEF, 0xBE, 0xED, 0xFE, 1, 0, 0, 0, 2, 0, 0, 0]).1 =
        .error Err.InvalidFormat ↔
      leU32 [0xEF, 0xBE, 0xED, 0xFE, 1, 0, 0, 0, 2, 0, 0, 0] ≠ 0xFEEDBEEF) ∧
    (leU32 [0xEF, 0xBE, 0xED, 0xFE, 1, 0, 0, 0, 2, 0, 0, 0] ≠ 0xFEEDBEEF →
      (readHeader [0xEF, 0xBE, 0xED, 0xFE, 1, 0, 0, 0, 2, 0, 0, 0]).2 =
        List.drop 4 [0xEF, 0xBE, 0xED, 0xFE, 1, 0, 0, 0, 2, 0, 0, 0]) ∧
    (leU32 [0xEF, 0xBE, 0xED, 0xFE, 1, 0, 0, 0, 2, 0, 0, 0] = 0xFEEDBEEF →
      (readHeader [0xEF, 0xBE, 0xED, 0xFE, 1, 0, 0, 0, 2, 0, 0, 0]).1 =
        .ok (toSigned32 (leU32 (List.drop 4 [0xEF, 0xBE, 0xED, 0xFE, 1, 0, 0, 0, 2, 0, 0, 0])),
             toSigned32 (leU32 (List.drop 8 [0xEF, 0xBE, 0xED, 0xFE, 1, 0, 0, 0, 2, 0, 0, 0]))) ∧
      (readHeader [0xEF, 0xBE, 0xED, 0xFE, 1, 0, 0, 0, 2, 0, 0, 0]).2 =
        List.drop 12 [0xEF, 0xBE, 0xED, 0xFE, 1, 0, 0, 0, 2, 0, 0, 0]) :=
  readHeader_behavior [0xEF, 0xBE, 0xED, 0xFE, 1, 0, 0, 0, 2, 0, 0, 0] (by decide)

/-- C10 is violated in the code: after a successful `fopen`, a file whose
magic is `0xDEADBEEF` (bytes EF BE AD DE) makes `main` return 1 without ever
calling `fclose`, so the opened stream is not closed on that exit path. -/
theorem invalid_magic_no_fclose :
    mainEvents true [0xEF, 0xBE, 0xAD, 0xDE] = [Event.fopen] ∧
    Event.fopen ∈ mainEvents true [0xEF, 0xBE, 0xAD, 0xDE] ∧
    Event.fclose ∉ mainEvents true [0xEF, 0xBE, 0xAD, 0xDE] := by
  decide

/-- C1: for valid matrices with `Q.cols == K.cols` and `K.rows == V.rows`,
`attention(Q, K, V)` returns exactly
`softmax((Q × transpose(K)) / sqrt(d_k)) × V` with `d_k` the column count of
`Q`, and the output has shape `Q.rows × V.cols`. -/
theorem attention_formula_and_shape (Q K V : Matrix)
    (hQ : 0 < Q.rows) (hQc : 0 < Q.cols) (hK : 0 < K.rows) (hKc : 0 < K.cols)
    (hV : 0 < V.rows) (hVc : 0 < V.cols)
    (h1 : Q.cols = K.cols) (h2 : K.rows = V.rows) :
    attention Q K V = .ok (attentionSpec Q K V) ∧
    (attentionSpec Q K V).rows = Q.rows ∧ (attentionSpec Q K V).cols = V.cols :=
  ⟨attention_ok Q K V hQ hKc h1 h2, attentionSpec_rows Q K V, attentionSpec_cols Q K V hQ⟩

/-- Witness for C1 on 1×1 matrices. -/
theorem attention_formula_and_shape_witness :
    attention [[(1 : ℝ)]] [[2]] [[3]] = .ok (attentionSpec [[(1 : ℝ)]] [[2]] [[3]]) ∧
    (attentionSpec [[(1 : ℝ)]] [[2]] [[3]]).rows = Matrix.rows [[(1 : ℝ)]] ∧
    (attentionSpec [[(1 : ℝ)]] [[2]] [[3]]).cols = Matrix.cols [[(3 : ℝ)]] :=
  attention_formula_and_shape [[(1 : ℝ)]] [[2]] [[3]]
    (by norm_num [Matrix.rows]) (by norm_num [Matrix.cols])
    (by norm_num [Matrix.rows]) (by norm_num [Matrix.cols])
    (by norm_num [Matrix.rows]) (by norm_num [Matrix.cols])
    (by norm_num [Matrix.cols]) (by norm_num [Matrix.rows])

/-- C2: for an input of shape `sequence_length × d_model` and a block whose
four weight matrices are `d_model × d_model`, `forward(input)` equals
`attention(input × W_q, input × W_k, input × W_v) × W_out`, and the output
shape equals the input shape. -/
theorem forward_composition (b : TransformerBlock) (input : Matrix) (d : Nat) (hd : 0 < d)
    (hin : 0 < input.rows) (hic : input.cols = d)
    (hqr : b.W_q.rows = d) (hqc : b.W_q.cols = d)
    (hkr : b.W_k.rows = d) (hkc : b.W_k.cols = d)
    (hvr : b.W_v.rows = d) (hvc : b.W_v.cols = d)
    (hor : b.W_out.rows = d) (hoc : b.W_out.cols = d) :
    attention (matmulVal input b.W_q) (matmulVal input b.W_k) (matmulVal input b.W_v) =
      .ok (attentionSpec (matmulVal input b.W_q) (matmulVal input b.W_k)
        (matmulVal input b.W_v)) ∧
    b.forward input =
      .ok (matmulVal (attentionSpec (matmulVal input b.W_q) (matmulVal input b.W_k)
        (matmulVal input b.W_v)) b.W_out) ∧
    Matrix.rows (matmulVal (attentionSpec (matmulVal input b.W_q) (matmulVal input b.W_k)
        (matmulVal input b.W_v)) b.W_out) = input.rows ∧
    Matrix.cols (matmulVal (attentionSpec (matmulVal input b.W_q) (matmulVal input b.W_k)
        (matmulVal input b.W_v)) b.W_out) = input.cols := by
  have hQr : (matmulVal input b.W_q).rows = input.rows := matmulVal_rows _ _
  have hKr : (matmulVal input b.W_k).rows = input.rows := matmulVal_rows _ _
  have hVr : (matmulVal input b.W_v).rows = input.rows := matmulVal_rows _ _
  have hQc2 : (matmulVal input b.W_q).cols = d := by rw [matmulVal_cols _ _ hin, hqc]
  have hKc2 : (matmulVal input b.W_k).cols = d := by rw [matmulVal_cols _ _ hin, hkc]
  have hVc2 : (matmulVal input b.W_v).cols = d := by rw [matmulVal_cols _ _ hin, hvc]
  have hatt : attention (matmulVal input b.W_q) (matmulVal input b.W_k)
      (matmulVal input b.W_v) =
      .ok (attentionSpec (matmulVal input b.W_q) (matmulVal input b.W_k)
        (matmulVal input b.W_v)) :=
    attention_ok _ _ _ (by rw [hQr]; exact hin) (by rw [hKc2]; exact hd)
      (by rw [hQc2, hKc2]) (by rw [hKr, hVr])
  have hm1 : matmul input b.W_q = .ok (matmulVal input b.W_q) := by
    rw [matmul, if_neg]
    simp [hic, hqr]
  have hm2 : matmul input b.W_k = .ok (matmulVal input b.W_k) := by
    rw [matmul, if_neg]
    simp [hic, hkr]
  have hm3 : matmul input b.W_v = .ok (matmulVal input b.W_v) := by
    rw [matmul, if_neg]
    simp [hic, hvr]
  have hattrows : Matrix.rows (attentionSpec (matmulVal input b.W_q) (matmulVal input b.W_k)
      (matmulVal input b.W_v)) = input.rows := by
    rw [attentionSpec_rows, hQr]
  have hlast : matmul (attentionSpec (matmulVal input b.W_q) (matmulVal input b.W_k)
      (matmulVal input b.W_v)) b.W_out =
      .ok (matmulVal (attentionSpec (matmulVal input b.W_q) (matmulVal input b.W_k)
        (matmulVal input b.W_v)) b.W_out) := by
    rw [matmul, if_neg]
    rw [attentionSpec_cols _ _ _ (by rw [hQr]; exact hin), hVc2, hor]
    simp
  refine ⟨hatt, ?_, ?_, ?_⟩
  · simp only [TransformerBlock.forward, hm1, hm2, hm3]
    show (attention (matmulVal input b.W_q) (matmulVal input b.W_k)
        (matmulVal input b.W_v) >>= fun attn_out => matmul attn_out b.W_out) =
      Except.ok (matmulVal (attentionSpec (matmulVal input b.W_q) (matmulVal input b.W_k)
        (matmulVal input b.W_v)) b.W_out)
    rw [hatt]
    show matmul (attentionSpec (matmulVal input b.W_q) (matmulVal input b.W_k)
        (matmulVal input b.W_v)) b.W_out =
      Except.ok (matmulVal (attentionSpec (matmulVal input b.W_q) (matmulVal input b.W_k)
        (matmulVal input b.W_v)) b.W_out)
    exact hlast
  · rw [matmulVal_rows, hattrows]
  · rw [matmulVal_cols _ _ (by rw [hattrows]; exact hin), hoc, hic]

/-- Witness for C2: a block of 1×1 weights on a 1×1 input. -/
theorem forward_composition_witness :
    attention (matmulVal [[(1 : ℝ)]] [[2]]) (matmulVal [[(1 : ℝ)]] [[3]])
        (matmulVal [[(1 : ℝ)]] [[4]]) =
      .ok (attentionSpec (matmulVal [[(1 : ℝ)]] [[2]]) (matmulVal [[(1 : ℝ)]] [[3]])
        (matmulVal [[(1 : ℝ)]] [[4]])) ∧
    TransformerBlock.forward ⟨[[2]], [[3]], [[4]], [[5]]⟩ [[(1 : ℝ)]] =
      .ok (matmulVal (attentionSpec (matmulVal [[(1 : ℝ)]] [[2]])
        (matmulVal [[(1 : ℝ)]] [[3]]) (matmulVal [[(1 : ℝ)]] [[4]])) [[5]]) ∧
    Matrix.rows (matmulVal (attentionSpec (matmulVal [[(1 : ℝ)]] [[2]])
        (matmulVal [[(1 : ℝ)]] [[3]]) (matmulVal [[(1 : ℝ)]] [[4]])) [[5]]) =
      Matrix.rows [[(1 : ℝ)]] ∧
    Matrix.cols (matmulVal (attentionSpec (matmulVal [[(1 : ℝ)]] [[2]])
        (matmulVal [[(1 : ℝ)]] [[3]]) (matmulVal [[(1 : ℝ)]] [[4]])) [[5]]) =
      Matrix.cols [[(1 : ℝ)]] :=
  forward_composition ⟨[[2]], [[3]], [[4]], [[5]]⟩ [[(1 : ℝ)]] 1 (by norm_num)
    (by norm_num [Matrix.rows]) (by norm_num [Matrix.cols])
    (by norm_num [Matrix.rows]) (by norm_num [Matrix.cols])
    (by norm_num [Matrix.rows]) (by norm_num [Matrix.cols])
    (by norm_num [Matrix.rows]) (by norm_num [Matrix.cols])
    (by norm_num [Matrix.rows]) (by norm_num [Matrix.cols])

/-- C8: when the stream holds fewer than the `4·d_model²` floats the four
weight matrices need, the constructor still reports no error (the model is a
total function): each cell receives the stream float at its global offset
(in the order `W_q`, `W_k`, `W_v`, `W_out`, row-major), and every cell
beyond the data actually available keeps the `0.0` fill it was allocated
with. -/
theorem load_weights_silent_short_read (d : Nat) (f : List ℝ) (i j : Nat)
    (hshort : f.length < 4 * (d * d)) (hi : i < d) (hj : j < d) :
    ((mkTransformerBlock d f).1.W_q.entry i j = f.getD (i * d + j) 0 ∧
     (mkTransformerBlock d f).1.W_k.entry i j = f.getD (d * d + (i * d + j)) 0 ∧
     (mkTransformerBlock d f).1.W_v.entry i j = f.getD (2 * (d * d) + (i * d + j)) 0 ∧
     (mkTransformerBlock d f).1.W_out.entry i j = f.getD (3 * (d * d) + (i * d + j)) 0) ∧
    (f.length ≤ i * d + j → (mkTransformerBlock d f).1.W_q.entry i j = 0) ∧
    (f.length ≤ d * d + (i * d + j) → (mkTransformerBlock d f).1.W_k.entry i j = 0) ∧
    (f.length ≤ 2 * (d * d) + (i * d + j) → (mkTransformerBlock d f).1.W_v.entry i j = 0) ∧
    (f.length ≤ 3 * (d * d) + (i * d + j) → (mkTransformerBlock d f).1.W_out.entry i j = 0) := by
  have hq : (mkTransformerBlock d f).1.W_q.entry i j = f.getD (i * d + j) 0 := by
    unfold mkTransformerBlock
    dsimp only
    exact loadMatrix_entry f d d i j hi hj
  have hk : (mkTransformerBlock d f).1.W_k.entry i j = f.getD (d * d + (i * d + j)) 0 := by
    unfold mkTransformerBlock
    dsimp only
    rw [loadMatrix_snd, loadMatrix_entry _ d d i j hi hj, getD_drop]
  have hv : (mkTransformerBlock d f).1.W_v.entry i j =
      f.getD (2 * (d * d) + (i * d + j)) 0 := by
    unfold mkTransformerBlock
    dsimp only
    rw [loadMatrix_snd, loadMatrix_snd, loadMatrix_entry _ d d i j hi hj,
      getD_drop, getD_drop]
    congr 1
    ring
  have ho : (mkTransformerBlock d f).1.W_out.entry i j =
      f.getD (3 * (d * d) + (i * d + j)) 0 := by
    unfold mkTransformerBlock
    dsimp only
    rw [loadMatrix_snd, loadMatrix_snd, loadMatrix_snd, loadMatrix_entry _ d d i j hi hj,
      getD_drop, getD_drop, getD_drop]
    congr 1
    ring
  refine ⟨⟨hq, hk, hv, ho⟩, ?_, ?_, ?_, ?_⟩
  · intro hle
    rw [hq]
    exact List.getD_eq_default _ _ hle
  · intro hle
    rw [hk]
    exact List.getD_eq_default _ _ hle
  · intro hle
    rw [hv]
    exact List.getD_eq_default _ _ hle
  · intro hle
    rw [ho]
    exact List.getD_eq_default _ _ hle

/-- Witness for C8: `d_model = 2` but only three floats in the stream; cell
(1,0) of `W_q` still reads float index 2, and all of `W_k` keeps the fill. -/
theorem load_weights_silent_short_read_witness :
    (mkTransformerBlock 2 [(1 : ℝ), 2, 3]).1.W_q.entry 1 0 =
      List.getD [(1 : ℝ), 2, 3] (1 * 2 + 0) 0 :=
  (load_weights_silent_short_read 2 [(1 : ℝ), 2, 3] 1 0
    (by norm_num) (by norm_num) (by norm_num)).1.1

end fastLM
